import Mathlib

/-!
Verification of the MAXCUT-QAOA core of the workshop repository.

The embedded functions come from the QAOA demo notebook
(`QAOA_Demo_Code.ipynb`): `append_zz_term`, `append_x_term`,
`get_cost_operator_circuit`, `get_mixer_operator_circuit`,
`get_qaoa_circuit`, `invert_counts`, `maxcut_obj`,
`compute_maxcut_energy`, and the final best-solution selection
(`min` with `key=itemgetter(0)` over the outcome distribution's keys).

Modelling choices:
* a graph is a node count `n` (nodes are `0 .. n-1`) together with an
  edge list, matching the spec's data model of contiguous integer nodes;
* bitstrings are `List Char` (the Python code indexes into strings of
  characters); out-of-range indexing uses the default `'_'`, which never
  occurs inside a well-formed bitstring;
* angles are rationals (`ℚ`): no trigonometric evaluation is ever needed
  by the embedded code, only the formal `2 * angle` arithmetic;
* a circuit is a list of instructions; Qiskit's `qc.h(range(N))`,
  `qc.measure(range(N), range(N))` append one instruction per line,
  `qc.barrier(...)` appends a single barrier instruction;
* Python's `assert` failure in `get_qaoa_circuit` and the
  `ZeroDivisionError` in `compute_maxcut_energy` are modelled by
  `Except` with the error names the spec gives them
  (`ParameterMismatchError`, `EmptyDistributionError`).
-/

/-- A graph: `n` nodes named `0 .. n-1` and a list of edges. -/
structure Graph where
  n : Nat
  edges : List (Nat × Nat)
  deriving DecidableEq, Repr

/-- Well-formedness from the spec's data model: every edge references
existing nodes and is not a self-loop. -/
def Graph.WF (G : Graph) : Prop :=
  ∀ e ∈ G.edges, e.1 < G.n ∧ e.2 < G.n ∧ e.1 ≠ e.2

instance (G : Graph) : Decidable G.WF := by
  unfold Graph.WF; infer_instance

/-- The node enumeration `G.nodes()`: nodes are contiguous from 0. -/
def Graph.nodes (G : Graph) : List Nat :=
  List.range G.n

/-- One circuit instruction, as issued by the notebook's code. -/
inductive Instr where
  | h (q : Nat)
  | cx (q1 q2 : Nat)
  | rz (angle : ℚ) (q : Nat)
  | rx (angle : ℚ) (q : Nat)
  | barrier
  | measure (q c : Nat)
  deriving DecidableEq, Repr

/-- A circuit program: the ordered instruction list of a `QuantumCircuit`. -/
abbrev Circuit := List Instr

/-- The failure modes the spec names for this core. -/
inductive QAOAError where
  | parameterMismatch
  | emptyDistribution
  deriving DecidableEq, Repr

/-- `append_zz_term(qc, q1, q2, gamma)`: `qc.cx(q1,q2); qc.rz(2*gamma,q2);
qc.cx(q1,q2)`. -/
def append_zz_term (qc : Circuit) (q1 q2 : Nat) (gamma : ℚ) : Circuit :=
  qc ++ [Instr.cx q1 q2, Instr.rz (2 * gamma) q2, Instr.cx q1 q2]

/-- `append_x_term(qc, q1, beta)`: `qc.rx(2*beta, q1)`. -/
def append_x_term (qc : Circuit) (q1 : Nat) (beta : ℚ) : Circuit :=
  qc ++ [Instr.rx (2 * beta) q1]

/-- `get_cost_operator_circuit(G, gamma)`: for each edge append a zz term
followed by `qc.barrier()`. -/
def get_cost_operator_circuit (G : Graph) (gamma : ℚ) : Circuit :=
  G.edges.foldl (fun qc e => append_zz_term qc e.1 e.2 gamma ++ [Instr.barrier]) []

/-- `get_mixer_operator_circuit(G, beta)`: for each node append an x term. -/
def get_mixer_operator_circuit (G : Graph) (beta : ℚ) : Circuit :=
  G.nodes.foldl (fun qc q => append_x_term qc q beta) []

/-- `qc.h(range(N))`: a Hadamard on each of the `N` lines. -/
def hadamardLayer (N : Nat) : Circuit :=
  (List.range N).map Instr.h

/-- `qc.measure(range(N), range(N))`: measure line `q` into classical bit
`q`, for each `q < N`. -/
def measureLayer (N : Nat) : Circuit :=
  (List.range N).map (fun q => Instr.measure q q)

/-- `get_qaoa_circuit(G, beta, gamma)`: asserts `len(beta) == len(gamma)`
(modelled as `ParameterMismatchError`), applies a Hadamard layer, then `p`
alternating cost/mixer layers, then a barrier and a full measurement. -/
def get_qaoa_circuit (G : Graph) (beta gamma : List ℚ) :
    Except QAOAError Circuit :=
  if beta.length = gamma.length then
    let p := beta.length
    let N := G.n
    let qc1 : Circuit := [] ++ hadamardLayer N
    let qc2 := (List.range p).foldl
      (fun qc i =>
        (qc ++ get_cost_operator_circuit G (gamma.getD i 0))
          ++ get_mixer_operator_circuit G (beta.getD i 0)) qc1
    Except.ok ((qc2 ++ [Instr.barrier]) ++ measureLayer N)
  else
    Except.error QAOAError.parameterMismatch

/-- `invert_counts(counts)`: reverse every key of the outcome
distribution. The distribution is modelled as an association list in its
iteration order. -/
def invert_counts (counts : List (List Char × Nat)) : List (List Char × Nat) :=
  counts.map (fun kv => (kv.1.reverse, kv.2))

/-- `maxcut_obj(x, G)`: start from `cut = 0` and subtract 1 for each edge
whose endpoint characters differ. -/
def maxcut_obj (x : List Char) (G : Graph) : Int :=
  G.edges.foldl
    (fun cut e => if x.getD e.1 '_' ≠ x.getD e.2 '_' then cut - 1 else cut) 0

/-- `compute_maxcut_energy(counts, G)`: accumulate
`energy += maxcut_obj(meas,G) * count` and `total_counts += count` over
the distribution, then divide; Python's division by a zero total raises,
which the spec names `EmptyDistributionError`. -/
def compute_maxcut_energy (counts : List (List Char × Nat)) (G : Graph) :
    Except QAOAError ℚ :=
  let r := counts.foldl
    (fun (acc : Int × Nat) kv =>
      (acc.1 + maxcut_obj kv.1 G * (kv.2 : Int), acc.2 + kv.2)) (0, 0)
  if r.2 = 0 then Except.error QAOAError.emptyDistribution
  else Except.ok ((r.1 : ℚ) / (r.2 : ℚ))

/-- The final cell's best-solution selection uses Python's
`min(..., key=itemgetter(0))`, which keeps the first element attaining
the minimal key: a fold replacing the current best only on a strict
decrease. -/
def pythonMinFst (l : List (Int × List Char)) : Option (Int × List Char) :=
  match l with
  | [] => none
  | x :: xs => some (xs.foldl (fun best y => if y.1 < best.1 then y else best) x)

/-- `min([(maxcut_obj(x,G),x) for x in counts.keys()], key=itemgetter(0))`:
the pair `(best_cut, best_solution)` of the notebook's final cell. -/
def best_selection (G : Graph) (counts : List (List Char × Nat)) :
    Option (Int × List Char) :=
  pythonMinFst (counts.map (fun kv => (maxcut_obj kv.1 G, kv.1)))

/-! ## Spec-side definitions -/

/-- Spec side: the number of edges whose endpoint bits differ in `x`. -/
def numCutEdges (x : List Char) (G : Graph) : Nat :=
  G.edges.countP (fun e => decide (x.getD e.1 '_' ≠ x.getD e.2 '_'))

/-- Spec side: the total occurrence count of an outcome distribution. -/
def totalCount (counts : List (List Char × Nat)) : Nat :=
  (counts.map Prod.snd).sum

/-- Spec side: `Σ count(b) · cut_value(b, G)` over the distribution. -/
def weightedCutSum (G : Graph) (counts : List (List Char × Nat)) : Int :=
  (counts.map (fun kv => maxcut_obj kv.1 G * (kv.2 : Int))).sum

/-- The notebook's example graph, the complete bipartite `K_{3,2}` with
parts `{0,1,2}` and `{3,4}`. -/
def demoGraph : Graph :=
  ⟨5, [(0, 3), (0, 4), (1, 3), (1, 4), (2, 3), (2, 4)]⟩

/-- A concrete sample outcome distribution on five nodes, with a
`cut_value` tie between its first and third keys. -/
def demoCounts : List (List Char × Nat) :=
  [(['0', '0', '0', '0', '0'], 2), (['1', '1', '1', '0', '0'], 5),
    (['0', '0', '0', '1', '1'], 3)]

/-- Spec side: one cost layer — for each edge, in enumeration order, the
conjugated phase rotation followed by the separator marker. -/
def costLayer (G : Graph) (gamma : ℚ) : Circuit :=
  G.edges.flatMap (fun e =>
    [Instr.cx e.1 e.2, Instr.rz (2 * gamma) e.2, Instr.cx e.1 e.2,
      Instr.barrier])

/-- Spec side: one mixer layer — an x rotation of angle `2β` on each node. -/
def mixerLayer (G : Graph) (beta : ℚ) : Circuit :=
  (List.range G.n).map (fun q => Instr.rx (2 * beta) q)

/-- Spec side: the `p` alternating cost/mixer layers, cost layer `i` with
angle `γ[i]` followed by mixer layer `i` with angle `β[i]`. -/
def qaoaLayers (G : Graph) (beta gamma : List ℚ) : Circuit :=
  (List.range beta.length).flatMap (fun i =>
    costLayer G (gamma.getD i 0) ++ mixerLayer G (beta.getD i 0))

/-- Spec side: a bitstring uses only the characters `'0'` and `'1'`. -/
def IsBitstring (x : List Char) : Prop :=
  ∀ c ∈ x, c = '0' ∨ c = '1'

instance (x : List Char) : Decidable (IsBitstring x) := by
  unfold IsBitstring; infer_instance

/-- Spec side: flipping one character of a bitstring. -/
def flipBit (c : Char) : Char :=
  if c = '0' then '1' else if c = '1' then '0' else c

/-! ## Helper lemmas -/

theorem maxcut_obj_foldl (x : List Char) :
    ∀ (es : List (Nat × Nat)) (c : Int),
      es.foldl
        (fun cut e => if x.getD e.1 '_' ≠ x.getD e.2 '_' then cut - 1 else cut) c
      = c - (es.countP (fun e => decide (x.getD e.1 '_' ≠ x.getD e.2 '_')) : Int) := by
  intro es
  induction es with
  | nil => intro c; simp
  | cons e es ih =>
    intro c
    by_cases hd : x.getD e.1 '_' ≠ x.getD e.2 '_'
    · simp only [List.foldl_cons, if_pos hd, ih, List.countP_cons,
        decide_eq_true_eq, if_pos hd]
      push_cast
      ring
    · simp only [List.foldl_cons, if_neg hd, ih, List.countP_cons,
        decide_eq_true_eq, if_neg hd]
      push_cast
      ring

theorem maxcut_obj_eq_neg_numCutEdges (x : List Char) (G : Graph) :
    maxcut_obj x G = -(numCutEdges x G : Int) := by
  unfold maxcut_obj numCutEdges
  rw [maxcut_obj_foldl]
  ring

theorem energy_foldl (G : Graph) :
    ∀ (counts : List (List Char × Nat)) (e : Int) (t : Nat),
      counts.foldl
        (fun (acc : Int × Nat) kv =>
          (acc.1 + maxcut_obj kv.1 G * (kv.2 : Int), acc.2 + kv.2)) (e, t)
      = (e + weightedCutSum G counts, t + totalCount counts) := by
  intro counts
  induction counts with
  | nil => intro e t; simp [weightedCutSum, totalCount]
  | cons kv counts ih =>
    intro e t
    simp only [List.foldl_cons, ih, weightedCutSum, totalCount, List.map_cons,
      List.sum_cons, Prod.mk.injEq]
    constructor <;> ring

theorem compute_maxcut_energy_eq (counts : List (List Char × Nat)) (G : Graph) :
    compute_maxcut_energy counts G
      = if totalCount counts = 0 then Except.error QAOAError.emptyDistribution
        else Except.ok ((weightedCutSum G counts : ℚ) / (totalCount counts : ℚ)) := by
  unfold compute_maxcut_energy
  rw [energy_foldl]
  simp

theorem flipBit_flipBit (c : Char) : flipBit (flipBit c) = c := by
  unfold flipBit
  by_cases h0 : c = '0'
  · simp [h0]
  · by_cases h1 : c = '1'
    · simp [h1]
    · simp [h0, h1]

theorem flipBit_injective : Function.Injective flipBit := by
  intro a b hab
  have := congrArg flipBit hab
  rwa [flipBit_flipBit, flipBit_flipBit] at this

theorem getD_map_flipBit (x : List Char) :
    ∀ i : Nat, (x.map flipBit).getD i '_' = flipBit (x.getD i '_') := by
  induction x with
  | nil =>
    intro i
    have h : flipBit '_' = '_' := by decide
    simp [h]
  | cons c x ih =>
    intro i
    cases i with
    | zero => simp
    | succ i => simpa using ih i

theorem cost_foldl (gamma : ℚ) :
    ∀ (es : List (Nat × Nat)) (init : Circuit),
      es.foldl
        (fun qc e => append_zz_term qc e.1 e.2 gamma ++ [Instr.barrier]) init
      = init ++ es.flatMap (fun e =>
          [Instr.cx e.1 e.2, Instr.rz (2 * gamma) e.2, Instr.cx e.1 e.2,
            Instr.barrier]) := by
  intro es
  induction es with
  | nil => intro init; simp
  | cons e es ih =>
    intro init
    rw [List.foldl_cons, ih]
    simp [append_zz_term]

theorem get_cost_operator_circuit_eq (G : Graph) (gamma : ℚ) :
    get_cost_operator_circuit G gamma = costLayer G gamma := by
  unfold get_cost_operator_circuit costLayer
  rw [cost_foldl]
  simp

theorem mixer_foldl (beta : ℚ) :
    ∀ (ns : List Nat) (init : Circuit),
      ns.foldl (fun qc q => append_x_term qc q beta) init
        = init ++ ns.map (fun q => Instr.rx (2 * beta) q) := by
  intro ns
  induction ns with
  | nil => intro init; simp
  | cons q ns ih =>
    intro init
    rw [List.foldl_cons, ih]
    simp [append_x_term]

theorem get_mixer_operator_circuit_eq (G : Graph) (beta : ℚ) :
    get_mixer_operator_circuit G beta = mixerLayer G beta := by
  unfold get_mixer_operator_circuit mixerLayer Graph.nodes
  rw [mixer_foldl]
  simp

theorem qaoa_layers_foldl (G : Graph) (beta gamma : List ℚ) :
    ∀ (idxs : List Nat) (init : Circuit),
      idxs.foldl
        (fun qc i =>
          (qc ++ get_cost_operator_circuit G (gamma.getD i 0))
            ++ get_mixer_operator_circuit G (beta.getD i 0)) init
      = init ++ idxs.flatMap (fun i =>
          costLayer G (gamma.getD i 0) ++ mixerLayer G (beta.getD i 0)) := by
  intro idxs
  induction idxs with
  | nil => intro init; simp
  | cons i idxs ih =>
    intro init
    rw [List.foldl_cons, ih]
    simp [get_cost_operator_circuit_eq, get_mixer_operator_circuit_eq]

theorem minFold_spec :
    ∀ (l : List (Int × List Char)) (acc : Int × List Char),
      (l.foldl (fun best y => if y.1 < best.1 then y else best) acc = acc
          ∧ ∀ j : Fin l.length, acc.1 ≤ (l.get j).1)
      ∨ (∃ i : Fin l.length,
          l.foldl (fun best y => if y.1 < best.1 then y else best) acc
              = l.get i
            ∧ (l.get i).1 < acc.1
            ∧ (∀ j : Fin l.length, (l.get i).1 ≤ (l.get j).1)
            ∧ (∀ j : Fin l.length, (j : Nat) < (i : Nat) →
                (l.get i).1 < (l.get j).1)) := by
  intro l
  induction l with
  | nil =>
    intro acc
    exact Or.inl ⟨rfl, fun j => j.elim0⟩
  | cons y t ih =>
    intro acc
    rw [List.foldl_cons]
    by_cases hy : y.1 < acc.1
    · rw [if_pos hy]
      rcases ih y with ⟨heq, hall⟩ | ⟨i, heq, hlt, hall, hfirst⟩
      · refine Or.inr ⟨⟨0, Nat.succ_pos _⟩, ?_, ?_, ?_, ?_⟩
        · rw [heq]; simp [List.get_eq_getElem]
        · simpa [List.get_eq_getElem] using hy
        · intro j
          obtain ⟨jv, hj⟩ := j
          cases jv with
          | zero => simp [List.get_eq_getElem]
          | succ k =>
            have hk : k < t.length := Nat.lt_of_succ_lt_succ hj
            simpa [List.get_eq_getElem] using hall ⟨k, hk⟩
        · intro j hj0
          exact absurd hj0 (Nat.not_lt_zero _)
      · refine Or.inr ⟨i.succ, ?_, ?_, ?_, ?_⟩
        · rw [heq]; simp [List.get_eq_getElem]
        · simpa [List.get_eq_getElem] using hlt.trans hy
        · intro j
          obtain ⟨jv, hj⟩ := j
          cases jv with
          | zero => simpa [List.get_eq_getElem] using hlt.le
          | succ k =>
            have hk : k < t.length := Nat.lt_of_succ_lt_succ hj
            simpa [List.get_eq_getElem] using hall ⟨k, hk⟩
        · intro j hji
          obtain ⟨jv, hj⟩ := j
          cases jv with
          | zero => simpa [List.get_eq_getElem] using hlt
          | succ k =>
            have hk : k < t.length := Nat.lt_of_succ_lt_succ hj
            have hki : k < (i : Nat) := Nat.lt_of_succ_lt_succ hji
            simpa [List.get_eq_getElem] using hfirst ⟨k, hk⟩ hki
    · rw [if_neg hy]
      have hay : acc.1 ≤ y.1 := le_of_not_lt hy
      rcases ih acc with ⟨heq, hall⟩ | ⟨i, heq, hlt, hall, hfirst⟩
      · refine Or.inl ⟨heq, ?_⟩
        intro j
        obtain ⟨jv, hj⟩ := j
        cases jv with
        | zero => simpa [List.get_eq_getElem] using hay
        | succ k =>
          have hk : k < t.length := Nat.lt_of_succ_lt_succ hj
          simpa [List.get_eq_getElem] using hall ⟨k, hk⟩
      · refine Or.inr ⟨i.succ, ?_, ?_, ?_, ?_⟩
        · rw [heq]; simp [List.get_eq_getElem]
        · simpa [List.get_eq_getElem] using hlt
        · intro j
          obtain ⟨jv, hj⟩ := j
          cases jv with
          | zero =>
            simpa [List.get_eq_getElem] using (hlt.trans_le hay).le
          | succ k =>
            have hk : k < t.length := Nat.lt_of_succ_lt_succ hj
            simpa [List.get_eq_getElem] using hall ⟨k, hk⟩
        · intro j hji
          obtain ⟨jv, hj⟩ := j
          cases jv with
          | zero => simpa [List.get_eq_getElem] using hlt.trans_le hay
          | succ k =>
            have hk : k < t.length := Nat.lt_of_succ_lt_succ hj
            have hki : k < (i : Nat) := Nat.lt_of_succ_lt_succ hji
            simpa [List.get_eq_getElem] using hfirst ⟨k, hk⟩ hki

theorem pythonMinFst_spec (l : List (Int × List Char)) (hl : l ≠ []) :
    ∃ i : Fin l.length,
      pythonMinFst l = some (l.get i)
        ∧ (∀ j : Fin l.length, (l.get i).1 ≤ (l.get j).1)
        ∧ (∀ j : Fin l.length, (j : Nat) < (i : Nat) →
            (l.get i).1 < (l.get j).1) := by
  cases l with
  | nil => exact absurd rfl hl
  | cons x xs =>
    have hres : pythonMinFst (x :: xs)
        = some (xs.foldl (fun best y => if y.1 < best.1 then y else best) x) :=
      rfl
    rcases minFold_spec xs x with ⟨heq, hall⟩ | ⟨i, heq, hlt, hall, hfirst⟩
    · refine ⟨⟨0, Nat.succ_pos _⟩, ?_, ?_, ?_⟩
      · rw [hres, heq]; simp [List.get_eq_getElem]
      · intro j
        obtain ⟨jv, hj⟩ := j
        cases jv with
        | zero => simp [List.get_eq_getElem]
        | succ k =>
          have hk : k < xs.length := Nat.lt_of_succ_lt_succ hj
          simpa [List.get_eq_getElem] using hall ⟨k, hk⟩
      · intro j hj0
        exact absurd hj0 (Nat.not_lt_zero _)
    · refine ⟨i.succ, ?_, ?_, ?_⟩
      · rw [hres, heq]; simp [List.get_eq_getElem]
      · intro j
        obtain ⟨jv, hj⟩ := j
        cases jv with
        | zero => simpa [List.get_eq_getElem] using hlt.le
        | succ k =>
          have hk : k < xs.length := Nat.lt_of_succ_lt_succ hj
          simpa [List.get_eq_getElem] using hall ⟨k, hk⟩
      · intro j hji
        obtain ⟨jv, hj⟩ := j
        cases jv with
        | zero => simpa [List.get_eq_getElem] using hlt
        | succ k =>
          have hk : k < xs.length := Nat.lt_of_succ_lt_succ hj
          have hki : k < (i : Nat) := Nat.lt_of_succ_lt_succ hji
          simpa [List.get_eq_getElem] using hfirst ⟨k, hk⟩ hki

/-! ## Claim theorems -/

/-- C1: for every graph `G` and every bitstring `b` of length `|V(G)|`
over `{'0','1'}`, `maxcut_obj b G ≤ 0` and `-maxcut_obj b G` equals the
number of edges of `G` whose endpoint bits differ in `b`. -/
theorem maxcut_obj_nonpos_and_counts_cut_edges (G : Graph) (b : List Char)
    (hlen : b.length = G.n) (hbits : IsBitstring b) :
    maxcut_obj b G ≤ 0 ∧ -maxcut_obj b G = (numCutEdges b G : Int) := by
  constructor
  · rw [maxcut_obj_eq_neg_numCutEdges]
    simp
  · rw [maxcut_obj_eq_neg_numCutEdges]
    ring

/-- Witness for C1 on the notebook's graph `K_{3,2}` and the bitstring
`"11100"`. -/
theorem maxcut_obj_nonpos_and_counts_cut_edges_witness :
    maxcut_obj ['1', '1', '1', '0', '0']
        ⟨5, [(0, 3), (0, 4), (1, 3), (1, 4), (2, 3), (2, 4)]⟩ ≤ 0 ∧
      -maxcut_obj ['1', '1', '1', '0', '0']
          ⟨5, [(0, 3), (0, 4), (1, 3), (1, 4), (2, 3), (2, 4)]⟩
        = (numCutEdges ['1', '1', '1', '0', '0']
            ⟨5, [(0, 3), (0, 4), (1, 3), (1, 4), (2, 3), (2, 4)]⟩ : Int) :=
  maxcut_obj_nonpos_and_counts_cut_edges
    ⟨5, [(0, 3), (0, 4), (1, 3), (1, 4), (2, 3), (2, 4)]⟩
    ['1', '1', '1', '0', '0'] (by decide) (by decide)

/-- C2: for every graph `G` and every outcome distribution with a positive
total occurrence count, `compute_maxcut_energy` returns exactly the
occurrence-weighted mean `Σ count(b)·cut_value(b,G) / Σ count(b)`. -/
theorem compute_maxcut_energy_is_weighted_mean
    (counts : List (List Char × Nat)) (G : Graph)
    (hpos : 0 < totalCount counts) :
    compute_maxcut_energy counts G
      = Except.ok ((weightedCutSum G counts : ℚ) / (totalCount counts : ℚ)) := by
  rw [compute_maxcut_energy_eq, if_neg (Nat.pos_iff_ne_zero.mp hpos)]

/-- Witness for C2 on the notebook's graph with a two-entry distribution. -/
theorem compute_maxcut_energy_is_weighted_mean_witness :
    compute_maxcut_energy
        [(['1', '1', '1', '0', '0'], 3), (['0', '0', '0', '0', '0'], 1)]
        ⟨5, [(0, 3), (0, 4), (1, 3), (1, 4), (2, 3), (2, 4)]⟩
      = Except.ok
          ((weightedCutSum ⟨5, [(0, 3), (0, 4), (1, 3), (1, 4), (2, 3), (2, 4)]⟩
              [(['1', '1', '1', '0', '0'], 3), (['0', '0', '0', '0', '0'], 1)] : ℚ)
            / (totalCount
                [(['1', '1', '1', '0', '0'], 3), (['0', '0', '0', '0', '0'], 1)] : ℚ)) :=
  compute_maxcut_energy_is_weighted_mean
    [(['1', '1', '1', '0', '0'], 3), (['0', '0', '0', '0', '0'], 1)]
    ⟨5, [(0, 3), (0, 4), (1, 3), (1, 4), (2, 3), (2, 4)]⟩ (by decide)

/-- C5: for every graph `G`, `compute_maxcut_energy` fails with
`EmptyDistributionError` on any distribution whose total occurrence count
is zero, in particular on the empty distribution. -/
theorem compute_maxcut_energy_empty_fails
    (counts : List (List Char × Nat)) (G : Graph)
    (hzero : totalCount counts = 0) :
    compute_maxcut_energy counts G
      = Except.error QAOAError.emptyDistribution := by
  rw [compute_maxcut_energy_eq, if_pos hzero]

/-- Witness for C5: the empty distribution on the notebook's graph. -/
theorem compute_maxcut_energy_empty_fails_witness :
    compute_maxcut_energy []
        ⟨5, [(0, 3), (0, 4), (1, 3), (1, 4), (2, 3), (2, 4)]⟩
      = Except.error QAOAError.emptyDistribution :=
  compute_maxcut_energy_empty_fails []
    ⟨5, [(0, 3), (0, 4), (1, 3), (1, 4), (2, 3), (2, 4)]⟩ (by decide)

/-- C8: for every graph `G`, `compute_maxcut_energy` returns the same
value on any two distributions that hold the same key-count pairs in
different orders. -/
theorem compute_maxcut_energy_perm_invariant
    (counts₁ counts₂ : List (List Char × Nat)) (G : Graph)
    (hperm : counts₁.Perm counts₂) :
    compute_maxcut_energy counts₁ G = compute_maxcut_energy counts₂ G := by
  have htot : totalCount counts₁ = totalCount counts₂ :=
    (hperm.map Prod.snd).sum_eq
  have hsum : weightedCutSum G counts₁ = weightedCutSum G counts₂ := by
    unfold weightedCutSum
    exact (hperm.map
      (fun kv : List Char × Nat => maxcut_obj kv.1 G * (kv.2 : Int))).sum_eq
  rw [compute_maxcut_energy_eq, compute_maxcut_energy_eq, htot, hsum]

/-- Witness for C8: two orderings of the same two-entry distribution. -/
theorem compute_maxcut_energy_perm_invariant_witness :
    compute_maxcut_energy
        [(['1', '1', '1', '0', '0'], 3), (['0', '0', '0', '0', '0'], 1)]
        ⟨5, [(0, 3), (0, 4), (1, 3), (1, 4), (2, 3), (2, 4)]⟩
      = compute_maxcut_energy
          [(['0', '0', '0', '0', '0'], 1), (['1', '1', '1', '0', '0'], 3)]
          ⟨5, [(0, 3), (0, 4), (1, 3), (1, 4), (2, 3), (2, 4)]⟩ :=
  compute_maxcut_energy_perm_invariant
    [(['1', '1', '1', '0', '0'], 3), (['0', '0', '0', '0', '0'], 1)]
    [(['0', '0', '0', '0', '0'], 1), (['1', '1', '1', '0', '0'], 3)]
    ⟨5, [(0, 3), (0, 4), (1, 3), (1, 4), (2, 3), (2, 4)]⟩
    (List.Perm.swap _ _ _)

/-- C3: `get_qaoa_circuit` fails with `ParameterMismatchError` whenever
the two angle vectors differ in length; otherwise it succeeds and its
circuit is an initial Hadamard layer on all `N` lines, then exactly
`p = len(β)` alternating cost layers (angle `γ[i]`) and mixer layers
(angle `β[i]`) in that order, then a separator and a measurement of all
`N` lines. -/
theorem get_qaoa_circuit_spec (G : Graph) (beta gamma : List ℚ) :
    (beta.length ≠ gamma.length →
      get_qaoa_circuit G beta gamma
        = Except.error QAOAError.parameterMismatch)
    ∧ (beta.length = gamma.length →
      get_qaoa_circuit G beta gamma
        = Except.ok (((hadamardLayer G.n ++ qaoaLayers G beta gamma)
            ++ [Instr.barrier]) ++ measureLayer G.n)) := by
  constructor
  · intro hne
    unfold get_qaoa_circuit
    rw [if_neg hne]
  · intro heq
    unfold get_qaoa_circuit
    rw [if_pos heq]
    simp only [qaoa_layers_foldl, List.nil_append, qaoaLayers]

/-- Witness for C3: a mismatched pair fails, a matched pair of depth 1
yields the layered circuit, both on the notebook's graph. -/
theorem get_qaoa_circuit_spec_witness :
    get_qaoa_circuit ⟨5, [(0, 3), (0, 4), (1, 3), (1, 4), (2, 3), (2, 4)]⟩
        [1] [1, 2]
      = Except.error QAOAError.parameterMismatch
    ∧ get_qaoa_circuit ⟨5, [(0, 3), (0, 4), (1, 3), (1, 4), (2, 3), (2, 4)]⟩
        [1] [2]
      = Except.ok
          (((hadamardLayer 5
              ++ qaoaLayers ⟨5, [(0, 3), (0, 4), (1, 3), (1, 4), (2, 3), (2, 4)]⟩
                  [1] [2]) ++ [Instr.barrier]) ++ measureLayer 5) :=
  ⟨(get_qaoa_circuit_spec
      ⟨5, [(0, 3), (0, 4), (1, 3), (1, 4), (2, 3), (2, 4)]⟩ [1] [1, 2]).1
      (by decide),
    (get_qaoa_circuit_spec
      ⟨5, [(0, 3), (0, 4), (1, 3), (1, 4), (2, 3), (2, 4)]⟩ [1] [2]).2 rfl⟩

/-- C4: the bit-order normalizer `invert_counts` is an involution: applied
twice it returns the original distribution. -/
theorem invert_counts_involution (counts : List (List Char × Nat)) :
    invert_counts (invert_counts counts) = counts := by
  unfold invert_counts
  rw [List.map_map]
  have : ((fun kv : List Char × Nat => (kv.1.reverse, kv.2))
      ∘ fun kv : List Char × Nat => (kv.1.reverse, kv.2)) = id := by
    funext kv
    simp
  rw [this, List.map_id]

/-- C9: `invert_counts` preserves the number of entries, carries every
count value over unchanged, maps distinct keys to distinct keys (string
reversal is injective), and preserves the total occurrence count. -/
theorem invert_counts_preserves_shape (counts : List (List Char × Nat)) :
    (invert_counts counts).length = counts.length
      ∧ (invert_counts counts).map Prod.snd = counts.map Prod.snd
      ∧ (((counts.map Prod.fst).Nodup
            → ((invert_counts counts).map Prod.fst).Nodup))
      ∧ totalCount (invert_counts counts) = totalCount counts := by
  refine ⟨by simp [invert_counts], ?_, ?_, ?_⟩
  · unfold invert_counts
    rw [List.map_map]
    rfl
  · intro hnd
    have hkeys : (invert_counts counts).map Prod.fst
        = (counts.map Prod.fst).map List.reverse := by
      unfold invert_counts
      rw [List.map_map, List.map_map]
      rfl
    rw [hkeys]
    exact hnd.map (fun a b hab => List.reverse_injective hab)
  · unfold totalCount invert_counts
    rw [List.map_map]
    rfl

/-- Witness for C9 on a concrete two-entry distribution with distinct
keys. -/
theorem invert_counts_preserves_shape_witness :
    (invert_counts [(['0', '1'], 2), (['1', '1'], 5)]).length
        = ([(['0', '1'], 2), (['1', '1'], 5)] :
            List (List Char × Nat)).length
      ∧ (invert_counts [(['0', '1'], 2), (['1', '1'], 5)]).map Prod.snd
          = ([(['0', '1'], 2), (['1', '1'], 5)] :
              List (List Char × Nat)).map Prod.snd
      ∧ ((([(['0', '1'], 2), (['1', '1'], 5)] :
              List (List Char × Nat)).map Prod.fst).Nodup
            → ((invert_counts [(['0', '1'], 2), (['1', '1'], 5)]).map
                Prod.fst).Nodup)
      ∧ totalCount (invert_counts [(['0', '1'], 2), (['1', '1'], 5)])
          = totalCount [(['0', '1'], 2), (['1', '1'], 5)] :=
  invert_counts_preserves_shape [(['0', '1'], 2), (['1', '1'], 5)]

/-- C6: on a non-empty final outcome distribution, the best-solution
selection returns the pair of `cut_value` and bitstring for the key whose
`cut_value` is algebraically smallest, ties broken by first occurrence in
iteration order (every strictly earlier key has a strictly larger
`cut_value`); the reported achieved cut size `-best_cut` is thus
`-cut_value` of that key. -/
theorem best_selection_picks_first_min (G : Graph)
    (counts : List (List Char × Nat)) (hne : counts ≠ []) :
    ∃ i : Fin counts.length,
      best_selection G counts
          = some (maxcut_obj (counts.get i).1 G, (counts.get i).1)
        ∧ (∀ j : Fin counts.length,
            maxcut_obj (counts.get i).1 G ≤ maxcut_obj (counts.get j).1 G)
        ∧ (∀ j : Fin counts.length, (j : Nat) < (i : Nat) →
            maxcut_obj (counts.get i).1 G < maxcut_obj (counts.get j).1 G) := by
  have hmapne : counts.map (fun kv => (maxcut_obj kv.1 G, kv.1)) ≠ [] := by
    intro h
    exact hne (List.map_eq_nil_iff.mp h)
  obtain ⟨i, hres, hall, hfirst⟩ :=
    pythonMinFst_spec (counts.map (fun kv => (maxcut_obj kv.1 G, kv.1))) hmapne
  have hlen : (counts.map (fun kv => (maxcut_obj kv.1 G, kv.1))).length
      = counts.length := List.length_map _ _
  have hget : ∀ j : Fin (counts.map
      (fun kv => (maxcut_obj kv.1 G, kv.1))).length,
      (counts.map (fun kv => (maxcut_obj kv.1 G, kv.1))).get j
        = (maxcut_obj (counts.get ⟨(j : Nat), lt_of_lt_of_eq j.isLt hlen⟩).1 G,
            (counts.get ⟨(j : Nat), lt_of_lt_of_eq j.isLt hlen⟩).1) := by
    intro j
    simp [List.get_eq_getElem]
  refine ⟨⟨(i : Nat), lt_of_lt_of_eq i.isLt hlen⟩, ?_, ?_, ?_⟩
  · rw [best_selection, hres, hget i]
  · intro j
    have hj : (j : Nat) < (counts.map
        (fun kv => (maxcut_obj kv.1 G, kv.1))).length :=
      lt_of_lt_of_eq j.isLt hlen.symm
    have := hall ⟨(j : Nat), hj⟩
    rw [hget i, hget ⟨(j : Nat), hj⟩] at this
    simpa using this
  · intro j hji
    have hj : (j : Nat) < (counts.map
        (fun kv => (maxcut_obj kv.1 G, kv.1))).length :=
      lt_of_lt_of_eq j.isLt hlen.symm
    have := hfirst ⟨(j : Nat), hj⟩ hji
    rw [hget i, hget ⟨(j : Nat), hj⟩] at this
    simpa using this

/-- Witness for C6: a three-entry distribution on the notebook's graph
with a `cut_value` tie between the first and third keys. -/
theorem best_selection_picks_first_min_witness :
    ∃ i : Fin demoCounts.length,
      best_selection demoGraph demoCounts
          = some (maxcut_obj (demoCounts.get i).1 demoGraph,
              (demoCounts.get i).1)
        ∧ (∀ j : Fin demoCounts.length,
            maxcut_obj (demoCounts.get i).1 demoGraph
              ≤ maxcut_obj (demoCounts.get j).1 demoGraph)
        ∧ (∀ j : Fin demoCounts.length, (j : Nat) < (i : Nat) →
            maxcut_obj (demoCounts.get i).1 demoGraph
              < maxcut_obj (demoCounts.get j).1 demoGraph) :=
  best_selection_picks_first_min demoGraph demoCounts (by decide)

/-- C7: for distinct lines `q1 ≠ q2` and any angle, `append_zz_term`
appends exactly `cx q1 q2; rz (2γ) q2; cx q1 q2` in that order and leaves
the rest of the circuit unchanged. -/
theorem append_zz_term_appends_three (qc : Circuit) (q1 q2 : Nat) (gamma : ℚ)
    (hne : q1 ≠ q2) :
    append_zz_term qc q1 q2 gamma
      = qc ++ [Instr.cx q1 q2, Instr.rz (2 * gamma) q2, Instr.cx q1 q2] :=
  rfl

/-- Witness for C7 on a nonempty circuit and lines 0 and 1. -/
theorem append_zz_term_appends_three_witness :
    append_zz_term [Instr.h 0] 0 1 (1 / 2)
      = [Instr.h 0]
          ++ [Instr.cx 0 1, Instr.rz (2 * (1 / 2)) 1, Instr.cx 0 1] :=
  append_zz_term_appends_three [Instr.h 0] 0 1 (1 / 2) (by decide)

/-- C10: the classical objective is invariant under complementing the
bitstring: flipping every bit of `b` leaves `maxcut_obj` unchanged. -/
theorem maxcut_obj_complement_invariant (G : Graph) (b : List Char)
    (hlen : b.length = G.n) (hbits : IsBitstring b) :
    maxcut_obj (b.map flipBit) G = maxcut_obj b G := by
  unfold maxcut_obj
  have hcond : ∀ e : Nat × Nat,
      ((b.map flipBit).getD e.1 '_' ≠ (b.map flipBit).getD e.2 '_')
        = (b.getD e.1 '_' ≠ b.getD e.2 '_') := by
    intro e
    rw [getD_map_flipBit, getD_map_flipBit]
    exact propext ⟨fun hne heq => hne (congrArg flipBit heq),
      fun hne heq => hne (flipBit_injective heq)⟩
  have : ∀ (es : List (Nat × Nat)) (c : Int),
      es.foldl (fun cut e =>
        if (b.map flipBit).getD e.1 '_' ≠ (b.map flipBit).getD e.2 '_'
        then cut - 1 else cut) c
      = es.foldl (fun cut e =>
          if b.getD e.1 '_' ≠ b.getD e.2 '_' then cut - 1 else cut) c := by
    intro es
    induction es with
    | nil => intro c; rfl
    | cons e es ih =>
      intro c
      simp only [List.foldl_cons, hcond e]
      exact ih _
  exact this G.edges 0

/-- Witness for C10 on the notebook's graph and the bitstring `"11100"`. -/
theorem maxcut_obj_complement_invariant_witness :
    maxcut_obj (['1', '1', '1', '0', '0'].map flipBit)
        ⟨5, [(0, 3), (0, 4), (1, 3), (1, 4), (2, 3), (2, 4)]⟩
      = maxcut_obj ['1', '1', '1', '0', '0']
          ⟨5, [(0, 3), (0, 4), (1, 3), (1, 4), (2, 3), (2, 4)]⟩ :=
  maxcut_obj_complement_invariant
    ⟨5, [(0, 3), (0, 4), (1, 3), (1, 4), (2, 3), (2, 4)]⟩
    ['1', '1', '1', '0', '0'] (by decide) (by decide)
